import Mathlib

/-!
ComputingBenchmark: blocked matrix multiplication, row partitioning, block-size tuner.

A shallow embedding of `src/MatrixMul_impl.cpp`:

* `matrix_mul`                      (lines 476-506), the blocked i-k-j kernel;
* `parallel_computing_optimized`    (lines 592-621), the row partitioning;
* `parallel_computing_simple_multithread` (lines 533-557), one thread per row block;
* `calculate_optimal_block_size`    (lines 168-192), the tuner arithmetic.

Modelling conventions.

* `vector<vector<int>>` is `List (List Int)`.  An element is a mathematical integer and every
  `int` operation of the kernel (`*`, `+=`) is followed by `wrapInt`, the reduction into the
  signed 32-bit range.
* `size_t` index arithmetic inside the kernel is done in `Nat`: the indices stay below the
  container size plus the block size.  The arithmetic on the thread count in
  `parallel_computing_optimized` is done modulo `2^64` (`size_t_mod`): the thread count comes
  from the command line and `rows_per_thread` wraps for a thread count close to `2^64`.
* An index outside a container is undefined behaviour in the source.  The accessors below are
  total (reads give `0`, writes do nothing); every theorem about the kernel assumes the
  documented precondition that the three matrices are square of one dimension, under which
  no access is out of range.
* A `for` loop whose step is the block size does not terminate when the block size is `0`.
  Such loops return `Option`, with `none` standing for a run that never finishes.
* A division by zero is undefined behaviour; the functions that divide return `none` there.
-/

namespace MatrixMul

/-! ## Data model -/

/-- The element type `int`: reduction of a mathematical integer into `[-2^31, 2^31)`. -/
def wrapInt (x : Int) : Int := (x + 2147483648) % 4294967296 - 2147483648

/-- A `vector<vector<int>>`. -/
abbrev Matrix := List (List Int)

/-- The read `m[i][j]`. -/
def Matrix.get (m : Matrix) (i j : Nat) : Int := (m.getD i []).getD j 0

/-- The statement `dst[i][j] += v` on `int`s. -/
def addAt (dst : Matrix) (i j : Nat) (v : Int) : Matrix :=
  dst.set i ((dst.getD i []).set j (wrapInt ((dst.getD i []).getD j 0 + v)))

/-- A matrix with `n` rows of `n` elements each. -/
def Square (n : Nat) (m : Matrix) : Prop := m.length = n ∧ ∀ r ∈ m, r.length = n

instance (n : Nat) (m : Matrix) : Decidable (Square n m) := by
  unfold Square; infer_instance

/-- The all-zero matrix `vector<vector<int>>(n, vector<int>(n, 0))` of `main`. -/
def zeros (n : Nat) : Matrix := List.replicate n (List.replicate n 0)

/-! ## Loops -/

/-- The iterations of `for (x = x0; ...; x++)` that remain when `cnt` of them are left. -/
def loopUp {σ : Type} (body : Nat → σ → σ) : Nat → Nat → σ → σ
  | 0, _, s => s
  | cnt + 1, x, s => loopUp body cnt (x + 1) (body x s)

/-- The loop `for (size_t x = lo; x < hi; x++) body`. -/
def forUp {σ : Type} (lo hi : Nat) (body : Nat → σ → σ) (s : σ) : σ :=
  loopUp body (hi - lo) lo s

/-- The loop `for (...; x < hi; x += step) body`, started at `x` with `fuel` iterations allowed;
`none` when the fuel runs out before the loop condition fails. -/
def loopBlocks {σ : Type} (step hi : Nat) (body : Nat → σ → Option σ) : Nat → Nat → σ → Option σ
  | 0, x, s => if x < hi then none else some s
  | fuel + 1, x, s =>
    if x < hi then (body x s).bind (loopBlocks step hi body fuel (x + step)) else some s

/-- The loop `for (size_t x = lo; x < hi; x += step) body`.  With `step ≥ 1` at most `hi - lo`
iterations run, so the fuel `hi - lo` is exhausted only by a loop that never ends. -/
def forBlocks {σ : Type} (lo hi step : Nat) (body : Nat → σ → Option σ) (s : σ) : Option σ :=
  loopBlocks step hi body (hi - lo) lo s

/-! ## The kernel -/

/-- The `j` loop of `matrix_mul` (lines 496-500) with its body `dst[i][j] += src1[i][k] * src2[k][j]`. -/
def tile_j (src1 src2 : Matrix) (blockSize jblock i k : Nat) (dst : Matrix) : Matrix :=
  forUp jblock (min (jblock + blockSize) dst.length) (fun j dst =>
    addAt dst i j (wrapInt (src1.get i k * src2.get k j))) dst

/-- The `k` loop of `matrix_mul` (lines 493-501). -/
def tile_k (src1 src2 : Matrix) (blockSize kblock jblock i : Nat) (dst : Matrix) : Matrix :=
  forUp kblock (min (kblock + blockSize) src2.length) (fun k dst =>
    tile_j src1 src2 blockSize jblock i k dst) dst

/-- The `i` loop of `matrix_mul` (lines 491-502): one tile.  Its bound is
`min(iblock + blockSize, src1.size())`. -/
def tile_mul (src1 src2 : Matrix) (blockSize iblock kblock jblock : Nat) (dst : Matrix) :
    Matrix :=
  forUp iblock (min (iblock + blockSize) src1.length) (fun i dst =>
    tile_k src1 src2 blockSize kblock jblock i dst) dst

/-- The `jblock` loop of `matrix_mul` (lines 489-503). -/
def jblock_loop (src1 src2 : Matrix) (blockSize iblock kblock : Nat) (dst : Matrix) :
    Option Matrix :=
  forBlocks 0 dst.length blockSize (fun jblock dst =>
    some (tile_mul src1 src2 blockSize iblock kblock jblock dst)) dst

/-- The `kblock` loop of `matrix_mul` (lines 487-504). -/
def kblock_loop (src1 src2 : Matrix) (blockSize iblock : Nat) (dst : Matrix) : Option Matrix :=
  forBlocks 0 src2.length blockSize (fun kblock dst =>
    jblock_loop src1 src2 blockSize iblock kblock dst) dst

/-- The function `matrix_mul(src1, src2, dst, blockSize, start, end)` (lines 476-506): the
`iblock` loop over `[start, end)`; the result is the final content of `dst`. -/
def matrix_mul (src1 src2 dst : Matrix) (blockSize start end_ : Nat) : Option Matrix :=
  forBlocks start end_ blockSize (fun iblock dst =>
    kblock_loop src1 src2 blockSize iblock dst) dst

/-- The canonical product entry `Σ_k A[i][k] * B[k][j]` over the integers. -/
def dotProduct (A B : Matrix) (n i j : Nat) : Int :=
  ((List.range n).map (fun k => A.get i k * B.get k j)).sum

/-- The matrices of `main` (lines 55-62): `src1[row][col] = (row*31 + col*17) % 100`. -/
def main_src1 (n : Nat) : Matrix :=
  (List.range n).map (fun row => (List.range n).map (fun col => ((row * 31 + col * 17) % 100 : Nat)))

/-- The matrices of `main` (lines 55-62): `src2[row][col] = (row*17 + col*31) % 100`. -/
def main_src2 (n : Nat) : Matrix :=
  (List.range n).map (fun row => (List.range n).map (fun col => ((row * 17 + col * 31) % 100 : Nat)))

/-! ## The parallel driver -/

/-- The number of values of `size_t`: its arithmetic is arithmetic modulo `2^64`. -/
def size_t_mod : Nat := 18446744073709551616

/-- The launch loop of `parallel_computing_optimized` (lines 602-615) with `cnt` iterations of
`t < num_threads` left: the `(start_row, end_row)` pairs handed to the workers, in launch order.
The `break` at `start_row >= matrix_size` ends the list.  The products `t * rows_per_thread`
and `(t + 1) * rows_per_thread` are `size_t` products. -/
def launch_loop (matrix_size rows_per_thread : Nat) : Nat → Nat → List (Nat × Nat)
  | 0, _ => []
  | cnt + 1, t =>
    let start_row := (t * rows_per_thread) % size_t_mod
    if start_row ≥ matrix_size then []
    else
      let end_row := min (((t + 1) * rows_per_thread) % size_t_mod) matrix_size
      (start_row, end_row) :: launch_loop matrix_size rows_per_thread cnt (t + 1)

/-- The row spans of `parallel_computing_optimized` for a matrix of `matrix_size` rows:
`rows_per_thread = (matrix_size + num_threads - 1) / num_threads` (line 600), computed in
`size_t`, so that the numerator is taken modulo `2^64`; a division by zero when `num_threads`
is `0`. -/
def worker_spans (matrix_size num_threads : Nat) : Option (List (Nat × Nat)) :=
  if num_threads = 0 then none
  else
    let rows_per_thread := ((matrix_size + num_threads - 1) % size_t_mod) / num_threads
    some (launch_loop matrix_size rows_per_thread num_threads 0)

/-- The workers' calls `matrix_mul(matrix1, matrix2, result, block_size, start_row, end_row)`
applied to `result` one after another, in the order of the list. -/
def run_workers (matrix1 matrix2 : Matrix) (block_size : Nat) :
    List (Nat × Nat) → Matrix → Option Matrix
  | [], result => some result
  | (start_row, end_row) :: rest, result =>
    (matrix_mul matrix1 matrix2 result block_size start_row end_row).bind
      (run_workers matrix1 matrix2 block_size rest)

/-- The function `parallel_computing_optimized` (lines 592-621), its threads run one after
another in launch order. -/
def parallel_computing_optimized (matrix1 matrix2 result : Matrix)
    (block_size num_threads : Nat) : Option Matrix :=
  (worker_spans matrix1.length num_threads).bind
    (fun spans => run_workers matrix1 matrix2 block_size spans result)

/-- The launch loop of `parallel_computing_simple_multithread` (lines 541-549): one thread per
row block, `for (size_t i = 0; i < matrix1.size(); i += block_size)`, each thread computing
`end = min(i + block_size, matrix1.size())`.  The result is the list of `(i, end)` pairs in
launch order; `none` when the loop never ends (`block_size` is `0`). -/
def simple_multithread_spans (matrix_size block_size : Nat) : Option (List (Nat × Nat)) :=
  forBlocks 0 matrix_size block_size (fun i threads =>
    some (threads ++ [(i, min (i + block_size) matrix_size)])) []

/-- The function `parallel_computing_simple_multithread` (lines 533-557), its threads run one
after another in launch order: each thread calls
`matrix_mul(matrix1, matrix2, result, block_size, i, end)`. -/
def parallel_computing_simple_multithread (matrix1 matrix2 result : Matrix)
    (block_size : Nat) : Option Matrix :=
  (simple_multithread_spans matrix1.length block_size).bind
    (fun spans => run_workers matrix1 matrix2 block_size spans result)

/-- Spans that do not share a row. -/
def SpansDisjoint (a c : Nat × Nat) : Prop :=
  ∀ x, ¬ ((a.1 ≤ x ∧ x < a.2) ∧ (c.1 ≤ x ∧ x < c.2))

/-! ## The tuner -/

/-- The struct `CacheInfo` (`MatrixMul.h`, lines 35-41) with its default member
initialisers. -/
structure CacheInfo where
  l1_cache_size : Nat := 32768
  l2_cache_size : Nat := 262144
  l3_cache_size : Nat := 8388608
  line_size : Nat := 64
  deriving DecidableEq, Repr

/-- The arithmetic of `calculate_optimal_block_size` (lines 174-191) on the `CacheInfo` that
`get_cache_info()` returned.  `sizeof(int)` is `4`; `static_cast<size_t>(sqrt(x))` is the integer
square root; the division by `line_elements` is a division by zero when `line_size < 4`. -/
def calculate_optimal_block_size (cache : CacheInfo) : Option Nat :=
  let available_cache := cache.l1_cache_size / 3
  let elements_per_cache := available_cache / 4
  let block_size := Nat.sqrt elements_per_cache
  let line_elements := cache.line_size / 4
  if line_elements = 0 then none
  else
    let block_size := ((block_size + line_elements - 1) / line_elements) * line_elements
    let block_size := if block_size < 32 then 32 else block_size
    let block_size := if block_size > 512 then 512 else block_size
    some block_size

/-! ## The kernel invariant

`Inv n A B C0 C p` says that `C` is `C0` with, for every cell `(i, j)`, the first `p i j` products
`A[i][k] * B[k][j]` added. -/

/-- The content of cell `(i, j)` once the products for `k < m` have been added to `C0[i][j]`. -/
def cellVal (A B C0 : Matrix) (i j m : Nat) : Int :=
  if m = 0 then C0.get i j else wrapInt (C0.get i j + dotProduct A B m i j)

/-- The state of the kernel described by a progress map `p`. -/
def Inv (n : Nat) (A B C0 C : Matrix) (p : Nat → Nat → Nat) : Prop :=
  Square n C ∧ ∀ i j, i < n → j < n → C.get i j = cellVal A B C0 i j (p i j)

/-! ## Arithmetic on `int` -/

theorem wrapInt_add_left (x y : Int) : wrapInt (wrapInt x + y) = wrapInt (x + y) := by
  unfold wrapInt; omega

theorem wrapInt_add_right (x y : Int) : wrapInt (x + wrapInt y) = wrapInt (x + y) := by
  unfold wrapInt; omega

theorem wrapInt_zero : wrapInt 0 = 0 := by decide

theorem dotProduct_zero (A B : Matrix) (i j : Nat) : dotProduct A B 0 i j = 0 := by
  simp [dotProduct]

theorem dotProduct_succ (A B : Matrix) (m i j : Nat) :
    dotProduct A B (m + 1) i j = dotProduct A B m i j + A.get i m * B.get m j := by
  simp [dotProduct, List.range_succ]

/-! ## Reads and writes -/

theorem length_addAt (C : Matrix) (i j : Nat) (v : Int) : (addAt C i j v).length = C.length := by
  simp [addAt]

theorem square_addAt {n : Nat} {C : Matrix} (h : Square n C) (i j : Nat) (v : Int) :
    Square n (addAt C i j v) := by
  obtain ⟨hl, hr⟩ := h
  refine ⟨by simp [addAt, hl], ?_⟩
  intro r hr'
  unfold addAt at hr'
  by_cases hi : i < C.length
  · rcases List.mem_or_eq_of_mem_set hr' with h1 | h1
    · exact hr r h1
    · subst h1
      rw [List.length_set]
      have : C.getD i [] = C[i] := by simp [List.getD_eq_getElem?_getD, hi]
      rw [this]; exact hr _ (List.getElem_mem _)
  · rw [List.set_eq_of_length_le (by omega)] at hr'
    exact hr r hr'

theorem get_addAt {n : Nat} {C : Matrix} (h : Square n C) {i j : Nat} (hi : i < n) (hj : j < n)
    (v : Int) (i' j' : Nat) :
    (addAt C i j v).get i' j' =
      if i' = i ∧ j' = j then wrapInt (C.get i j + v) else C.get i' j' := by
  obtain ⟨hl, hr⟩ := h
  have hil : i < C.length := by omega
  have hrow : C[i].length = n := hr _ (List.getElem_mem _)
  unfold Matrix.get addAt
  by_cases h1 : i' = i
  · subst h1
    by_cases h2 : j' = j
    · subst h2
      simp [List.getD_eq_getElem?_getD, List.getElem?_set, hil, hrow, hj]
    · have h2' : ¬ (j = j') := fun h => h2 h.symm
      simp [List.getD_eq_getElem?_getD, List.getElem?_set, hil, h2, h2']
  · have h1' : ¬ (i = i') := fun h => h1 h.symm
    simp [List.getD_eq_getElem?_getD, List.getElem?_set, h1, h1']

/-! ## Loop invariants -/

theorem loopUp_inv {σ : Type} (body : Nat → σ → σ) (I : Nat → σ → Prop) (lo hi : Nat)
    (hstep : ∀ x s, lo ≤ x → x < hi → I x s → I (x + 1) (body x s)) :
    ∀ cnt x s, lo ≤ x → x + cnt = hi → I x s → I hi (loopUp body cnt x s) := by
  intro cnt
  induction cnt with
  | zero =>
    intro x s _ hx h
    have : x = hi := by omega
    subst this
    exact h
  | succ c ih =>
    intro x s hlo hx h
    exact ih (x + 1) (body x s) (by omega) (by omega) (hstep x s hlo (by omega) h)

theorem forUp_inv {σ : Type} (body : Nat → σ → σ) (I : Nat → σ → Prop) {lo hi : Nat}
    (hle : lo ≤ hi) (s : σ) (h0 : I lo s)
    (hstep : ∀ x s, lo ≤ x → x < hi → I x s → I (x + 1) (body x s)) :
    I hi (forUp lo hi body s) :=
  loopUp_inv body I lo hi hstep (hi - lo) lo s (Nat.le_refl _) (by omega) h0

theorem loopBlocks_inv {σ : Type} (body : Nat → σ → Option σ) (I : Nat → σ → Prop)
    {step : Nat} (hs : 0 < step) (hi : Nat)
    (hstep : ∀ x s, x < hi → I x s → ∃ s', body x s = some s' ∧ I (x + step) s') :
    ∀ fuel x s, hi - x ≤ fuel → I x s →
      ∃ x' s', loopBlocks step hi body fuel x s = some s' ∧ hi ≤ x' ∧ I x' s' := by
  intro fuel
  induction fuel with
  | zero =>
    intro x s hf h
    exact ⟨x, s, by simp [loopBlocks]; omega, by omega, h⟩
  | succ f ih =>
    intro x s hf h
    by_cases hx : x < hi
    · obtain ⟨s', hb, hI⟩ := hstep x s hx h
      obtain ⟨x', s'', hr, hx', hI'⟩ := ih (x + step) s' (by omega) hI
      exact ⟨x', s'', by simp [loopBlocks, hx, hb, hr], hx', hI'⟩
    · exact ⟨x, s, by simp [loopBlocks, hx], by omega, h⟩

theorem forBlocks_inv {σ : Type} (body : Nat → σ → Option σ) (I : Nat → σ → Prop)
    {step : Nat} (hs : 0 < step) (lo hi : Nat) (s : σ) (h0 : I lo s)
    (hstep : ∀ x s, x < hi → I x s → ∃ s', body x s = some s' ∧ I (x + step) s') :
    ∃ x' s', forBlocks lo hi step body s = some s' ∧ hi ≤ x' ∧ I x' s' :=
  loopBlocks_inv body I hs hi hstep (hi - lo) lo s (Nat.le_refl _) h0

theorem Inv.congr {n : Nat} {A B C0 C : Matrix} {p q : Nat → Nat → Nat}
    (h : Inv n A B C0 C p) (hpq : ∀ i j, i < n → j < n → p i j = q i j) : Inv n A B C0 C q :=
  ⟨h.1, fun i j hi hj => by rw [← hpq i j hi hj]; exact h.2 i j hi hj⟩

theorem Inv.init {n : Nat} (A B : Matrix) {C : Matrix} (h : Square n C) :
    Inv n A B C C (fun _ _ => 0) :=
  ⟨h, fun i j _ _ => by simp [cellVal]⟩

theorem Inv.addAt_step {n : Nat} {A B C0 C : Matrix} {p : Nat → Nat → Nat}
    (h : Inv n A B C0 C p) {i j : Nat} (hi : i < n) (hj : j < n) (k : Nat) (hk : p i j = k) :
    Inv n A B C0 (addAt C i j (wrapInt (A.get i k * B.get k j)))
      (fun i' j' => if i' = i ∧ j' = j then k + 1 else p i' j') := by
  refine ⟨square_addAt h.1 i j _, ?_⟩
  intro i' j' hi' hj'
  rw [get_addAt h.1 hi hj]
  by_cases hc : i' = i ∧ j' = j
  · simp only [hc, and_self, if_true]
    rw [h.2 i j hi hj, hk, wrapInt_add_right]
    unfold cellVal
    rw [dotProduct_succ]
    by_cases hk0 : k = 0
    · subst hk0; simp [dotProduct_zero]
    · simp only [hk0, if_false, Nat.succ_ne_zero]
      rw [wrapInt_add_left, add_assoc]
  · simp only [hc, if_false]
    exact h.2 i' j' hi' hj'

theorem Inv.after_tile_j {n : Nat} {A B C0 C : Matrix} {p : Nat → Nat → Nat}
    (h : Inv n A B C0 C p) (bs : Nat) {i jb : Nat} (hi : i < n) (hjb : jb ≤ n) (k : Nat)
    (hp : ∀ j, jb ≤ j → j < min (jb + bs) n → p i j = k) :
    Inv n A B C0 (tile_j A B bs jb i k C)
      (fun i' j' => if i' = i ∧ jb ≤ j' ∧ j' < min (jb + bs) n then k + 1 else p i' j') := by
  unfold tile_j
  rw [h.1.1]
  have key := forUp_inv (fun j dst => addAt dst i j (wrapInt (A.get i k * B.get k j)))
    (fun x D => Inv n A B C0 D
      (fun i' j' => if i' = i ∧ jb ≤ j' ∧ j' < x then k + 1 else p i' j'))
    (show jb ≤ min (jb + bs) n by omega) C
    (h.congr (fun i' j' _ _ => by split_ifs <;> first | rfl | omega))
    (by
      intro x D hx1 hx2 hD
      have hq : (fun i' j' => if i' = i ∧ jb ≤ j' ∧ j' < x then k + 1 else p i' j') i x = k := by
        have : ¬ (i = i ∧ jb ≤ x ∧ x < x) := by omega
        show (if i = i ∧ jb ≤ x ∧ x < x then k + 1 else p i x) = k
        rw [if_neg this]
        exact hp x hx1 hx2
      refine (hD.addAt_step hi (by omega) k hq).congr ?_
      intro i' j' _ _
      split_ifs <;> first | rfl | omega)
  exact key

theorem Inv.after_tile_k {n : Nat} {A B C0 C : Matrix} {p : Nat → Nat → Nat}
    (h : Inv n A B C0 C p) (hB : B.length = n) (bs : Nat) {i jb kb : Nat} (hi : i < n)
    (hjb : jb ≤ n) (hkb : kb ≤ n)
    (hp : ∀ j, jb ≤ j → j < min (jb + bs) n → p i j = kb) :
    Inv n A B C0 (tile_k A B bs kb jb i C)
      (fun i' j' => if i' = i ∧ jb ≤ j' ∧ j' < min (jb + bs) n then min (kb + bs) n
        else p i' j') := by
  unfold tile_k
  rw [hB]
  have key := forUp_inv (fun k dst => tile_j A B bs jb i k dst)
    (fun x D => Inv n A B C0 D
      (fun i' j' => if i' = i ∧ jb ≤ j' ∧ j' < min (jb + bs) n then x else p i' j'))
    (show kb ≤ min (kb + bs) n by omega) C
    (h.congr (fun i' j' _ _ => by
      split_ifs with hc
      · obtain ⟨h1, h2, h3⟩ := hc
        subst h1
        exact hp j' h2 h3
      · rfl))
    (by
      intro x D _ _ hD
      refine (hD.after_tile_j bs hi hjb x ?_).congr ?_
      · intro j h1 h2
        have : i = i ∧ jb ≤ j ∧ j < min (jb + bs) n := ⟨rfl, h1, h2⟩
        show (if i = i ∧ jb ≤ j ∧ j < min (jb + bs) n then x else p i j) = x
        rw [if_pos this]
      · intro i' j' _ _
        split_ifs <;> rfl)
  exact key

theorem Inv.after_tile_mul {n : Nat} {A B C0 C : Matrix} {p : Nat → Nat → Nat}
    (h : Inv n A B C0 C p) (hA : A.length = n) (hB : B.length = n) (bs : Nat) {ib jb kb : Nat}
    (hib : ib ≤ n) (hjb : jb ≤ n) (hkb : kb ≤ n)
    (hp : ∀ i j, ib ≤ i → i < min (ib + bs) n → jb ≤ j → j < min (jb + bs) n → p i j = kb) :
    Inv n A B C0 (tile_mul A B bs ib kb jb C)
      (fun i' j' => if (ib ≤ i' ∧ i' < min (ib + bs) n) ∧ jb ≤ j' ∧ j' < min (jb + bs) n
        then min (kb + bs) n else p i' j') := by
  unfold tile_mul
  rw [hA]
  have key := forUp_inv (fun i dst => tile_k A B bs kb jb i dst)
    (fun x D => Inv n A B C0 D
      (fun i' j' => if (ib ≤ i' ∧ i' < x) ∧ jb ≤ j' ∧ j' < min (jb + bs) n
        then min (kb + bs) n else p i' j'))
    (show ib ≤ min (ib + bs) n by omega) C
    (h.congr (fun i' j' _ _ => by split_ifs <;> first | rfl | omega))
    (by
      intro x D hx1 hx2 hD
      refine (hD.after_tile_k hB bs (show x < n by omega) hjb hkb ?_).congr ?_
      · intro j h1 h2
        have : ¬ ((ib ≤ x ∧ x < x) ∧ jb ≤ j ∧ j < min (jb + bs) n) := by omega
        show (if (ib ≤ x ∧ x < x) ∧ jb ≤ j ∧ j < min (jb + bs) n then min (kb + bs) n
          else p x j) = kb
        rw [if_neg this]
        exact hp x j hx1 hx2 h1 h2
      · intro i' j' _ _
        split_ifs <;> first | rfl | omega)
  exact key

theorem Inv.after_jblock_loop {n : Nat} {A B C0 C : Matrix} {p : Nat → Nat → Nat}
    (h : Inv n A B C0 C p) (hA : A.length = n) (hB : B.length = n) {bs : Nat} (hbs : 0 < bs)
    {ib kb : Nat} (hib : ib ≤ n) (hkb : kb ≤ n)
    (hp : ∀ i j, ib ≤ i → i < min (ib + bs) n → j < n → p i j = kb) :
    ∃ C', jblock_loop A B bs ib kb C = some C' ∧
      Inv n A B C0 C'
        (fun i' j' => if ib ≤ i' ∧ i' < min (ib + bs) n then min (kb + bs) n else p i' j') := by
  unfold jblock_loop
  rw [h.1.1]
  obtain ⟨x', C', hr, hx', hI⟩ := forBlocks_inv
    (fun jblock dst => some (tile_mul A B bs ib kb jblock dst))
    (fun x D => Inv n A B C0 D
      (fun i' j' => if (ib ≤ i' ∧ i' < min (ib + bs) n) ∧ j' < x then min (kb + bs) n
        else p i' j'))
    hbs 0 n C
    (h.congr (fun i' j' _ _ => by split_ifs <;> first | rfl | omega))
    (by
      intro x D hx hD
      refine ⟨_, rfl, ?_⟩
      refine (hD.after_tile_mul hA hB bs hib (show x ≤ n by omega) hkb ?_).congr ?_
      · intro i j h1 h2 h3 h4
        have : ¬ ((ib ≤ i ∧ i < min (ib + bs) n) ∧ j < x) := by omega
        show (if (ib ≤ i ∧ i < min (ib + bs) n) ∧ j < x then min (kb + bs) n else p i j) = kb
        rw [if_neg this]
        exact hp i j h1 h2 (by omega)
      · intro i' j' _ _
        split_ifs <;> first | rfl | omega)
  exact ⟨C', hr, hI.congr (fun i' j' _ hj' => by split_ifs <;> first | rfl | omega)⟩

theorem Inv.after_kblock_loop {n : Nat} {A B C0 C : Matrix} {p : Nat → Nat → Nat}
    (h : Inv n A B C0 C p) (hA : A.length = n) (hB : B.length = n) {bs : Nat} (hbs : 0 < bs)
    {ib : Nat} (hib : ib ≤ n)
    (hp : ∀ i j, ib ≤ i → i < min (ib + bs) n → j < n → p i j = 0) :
    ∃ C', kblock_loop A B bs ib C = some C' ∧
      Inv n A B C0 C' (fun i' j' => if ib ≤ i' ∧ i' < min (ib + bs) n then n else p i' j') := by
  unfold kblock_loop
  rw [hB]
  obtain ⟨x', C', hr, hx', hI⟩ := forBlocks_inv
    (fun kblock dst => jblock_loop A B bs ib kblock dst)
    (fun x D => Inv n A B C0 D
      (fun i' j' => if ib ≤ i' ∧ i' < min (ib + bs) n then min x n else p i' j'))
    hbs 0 n C
    (h.congr (fun i' j' _ hj' => by
      split_ifs with hc
      · rw [hp i' j' hc.1 hc.2 hj']; simp
      · rfl))
    (by
      intro x D hx hD
      obtain ⟨D', hD', hI'⟩ := hD.after_jblock_loop hA hB hbs hib (show x ≤ n by omega)
        (by
          intro i j h1 h2 _
          have : ib ≤ i ∧ i < min (ib + bs) n := ⟨h1, h2⟩
          show (if ib ≤ i ∧ i < min (ib + bs) n then min x n else p i j) = x
          rw [if_pos this]; omega)
      refine ⟨D', hD', hI'.congr ?_⟩
      intro i' j' _ _
      split_ifs <;> rfl)
  exact ⟨C', hr, hI.congr (fun i' j' _ hj' => by split_ifs <;> first | rfl | omega)⟩

/-- The complete effect of one kernel call: it returns, and it adds the canonical product to
exactly the rows `start ≤ i < min x n`, where `x` is the first value of `iblock` that fails the
loop test `iblock < end`. -/
theorem matrix_mul_effect {n : Nat} {A B C : Matrix} (hA : A.length = n) (hB : B.length = n)
    (hC : Square n C) {bs : Nat} (hbs : 0 < bs) {s e : Nat} (hse : s ≤ e) (hen : e ≤ n) :
    ∃ x C', matrix_mul A B C bs s e = some C' ∧ Square n C' ∧
      (e ≤ x ∧ x < e + bs ∧ s ≤ x ∧ bs ∣ (x - s)) ∧
      ∀ i j, i < n → j < n →
        C'.get i j = if s ≤ i ∧ i < min x n then wrapInt (C.get i j + dotProduct A B n i j)
          else C.get i j := by
  unfold matrix_mul
  obtain ⟨x', C', hr, hx', hI⟩ := forBlocks_inv
    (fun iblock dst => kblock_loop A B bs iblock dst)
    (fun x D => (x < e + bs ∧ s ≤ x ∧ bs ∣ (x - s)) ∧ Inv n A B C D
      (fun i' _ => if s ≤ i' ∧ i' < min x n then n else 0))
    hbs s e C
    ⟨⟨by omega, Nat.le_refl _, by simp⟩,
      (Inv.init A B hC).congr (fun i' j' _ _ => by split_ifs <;> first | rfl | omega)⟩
    (by
      intro x D hx hD
      obtain ⟨⟨h1, h2, h3⟩, hD⟩ := hD
      obtain ⟨D', hD', hI'⟩ := hD.after_kblock_loop hA hB hbs (show x ≤ n by omega)
        (by
          intro i j h1 h2 _
          have : ¬ (s ≤ i ∧ i < min x n) := by omega
          show (if s ≤ i ∧ i < min x n then n else 0) = 0
          rw [if_neg this])
      refine ⟨D', hD', ⟨by omega, by omega, ?_⟩, hI'.congr ?_⟩
      · have : x + bs - s = (x - s) + bs := by omega
        rw [this]
        exact Dvd.dvd.add h3 (dvd_refl bs)
      · intro i' j' _ _
        split_ifs <;> first | rfl | omega)
  obtain ⟨⟨h1, h2, h3⟩, hI⟩ := hI
  refine ⟨x', C', hr, hI.1, ⟨hx', h1, h2, h3⟩, ?_⟩
  intro i j hi hj
  rw [hI.2 i j hi hj]
  unfold cellVal
  have hn : n ≠ 0 := by omega
  by_cases hc : s ≤ i ∧ i < min x' n
  · simp only [if_pos hc, if_neg hn]
  · simp only [if_neg hc, if_true]

/-! ## The all-zero matrix -/

theorem square_zeros (n : Nat) : Square n (zeros n) := by
  refine ⟨by simp [zeros], ?_⟩
  intro r hr
  rw [zeros, List.mem_replicate] at hr
  rw [hr.2, List.length_replicate]

theorem get_zeros (n i j : Nat) : (zeros n).get i j = 0 := by
  unfold Matrix.get zeros
  simp only [List.getD_eq_getElem?_getD, List.getElem?_replicate]
  by_cases hi : i < n
  · by_cases hj : j < n <;> simp [hi, hj, List.getElem?_replicate]
  · simp [hi]

/-! ## The kernel on a single span -/

/-- C1: for square `n × n` matrices `A`, `B` and a tile size `1 ≤ t ≤ n`, the call
`matrix_mul(A, B, C, t, 0, n)` on an all-zero `C` returns, and leaves in every cell `(i, j)`
the canonical product `Σ_k A[i][k] * B[k][j]` reduced to the width of `int`. -/
theorem matrix_mul_single_span_canonical (n t : Nat) (A B : Matrix) (hA : Square n A)
    (hB : Square n B) (ht1 : 1 ≤ t) (_htn : t ≤ n) :
    ∃ C, matrix_mul A B (zeros n) t 0 n = some C ∧ Square n C ∧
      ∀ i j, i < n → j < n → C.get i j = wrapInt (dotProduct A B n i j) := by
  obtain ⟨x, C, hr, hsq, ⟨hx, _, _, _⟩, hval⟩ :=
    matrix_mul_effect hA.1 hB.1 (square_zeros n) ht1 (Nat.zero_le n) (Nat.le_refl n)
  refine ⟨C, hr, hsq, ?_⟩
  intro i j hi hj
  have hc : 0 ≤ i ∧ i < min x n := by omega
  rw [hval i j hi hj, if_pos hc, get_zeros, zero_add]

theorem matrix_mul_single_span_canonical_witness :
    (Square 2 [[1, 2], [3, 4]] ∧ Square 2 [[5, 6], [7, 8]] ∧ 1 ≤ 1 ∧ 1 ≤ 2) ∧
    ∃ C, matrix_mul [[1, 2], [3, 4]] [[5, 6], [7, 8]] (zeros 2) 1 0 2 = some C ∧ Square 2 C ∧
      ∀ i j, i < 2 → j < 2 →
        C.get i j = wrapInt (dotProduct [[1, 2], [3, 4]] [[5, 6], [7, 8]] 2 i j) :=
  ⟨by decide,
    matrix_mul_single_span_canonical 2 1 [[1, 2], [3, 4]] [[5, 6], [7, 8]]
      (by decide) (by decide) (by decide) (by decide)⟩

/-- C10: the kernel accumulates.  For square `n × n` matrices, a tile size `t ≥ 1`, a span
`0 ≤ rowStart < rowEnd ≤ n` and any initial content `C0`, the call
`matrix_mul(A, B, C, t, rowStart, rowEnd)` returns, and every row `i` of the span ends with
`C[i][j] = C0[i][j] + Σ_k A[i][k] * B[k][j]` in `int` arithmetic, for all `j`. -/
theorem matrix_mul_accumulates_on_span (n t rowStart rowEnd : Nat) (A B C0 : Matrix)
    (hA : Square n A) (hB : Square n B) (hC : Square n C0) (ht : 1 ≤ t)
    (hse : rowStart < rowEnd) (hen : rowEnd ≤ n) :
    ∃ C, matrix_mul A B C0 t rowStart rowEnd = some C ∧ Square n C ∧
      ∀ i j, rowStart ≤ i → i < rowEnd → j < n →
        C.get i j = wrapInt (C0.get i j + dotProduct A B n i j) := by
  obtain ⟨x, C, hr, hsq, ⟨hx, _, _, _⟩, hval⟩ :=
    matrix_mul_effect hA.1 hB.1 hC ht (Nat.le_of_lt hse) hen
  refine ⟨C, hr, hsq, ?_⟩
  intro i j h1 h2 hj
  have hc : rowStart ≤ i ∧ i < min x n := by omega
  rw [hval i j (by omega) hj, if_pos hc]

theorem matrix_mul_accumulates_on_span_witness :
    (Square 2 [[1, 2], [3, 4]] ∧ Square 2 [[5, 6], [7, 8]] ∧ Square 2 [[9, -1], [2147483647, 0]] ∧
      1 ≤ 3 ∧ 1 < 2 ∧ 2 ≤ 2) ∧
    ∃ C, matrix_mul [[1, 2], [3, 4]] [[5, 6], [7, 8]] [[9, -1], [2147483647, 0]] 3 1 2 = some C ∧
      Square 2 C ∧
      ∀ i j, 1 ≤ i → i < 2 → j < 2 →
        C.get i j = wrapInt (Matrix.get [[9, -1], [2147483647, 0]] i j +
          dotProduct [[1, 2], [3, 4]] [[5, 6], [7, 8]] 2 i j) :=
  ⟨by decide,
    matrix_mul_accumulates_on_span 2 3 1 2 [[1, 2], [3, 4]] [[5, 6], [7, 8]]
      [[9, -1], [2147483647, 0]] (by decide) (by decide) (by decide) (by decide) (by decide)
      (by decide)⟩

/-- C9 (as stated, refuted): for `n = 4`, the matrices of `main` and tile size `2`, the cell
`C[0][0]` after `matrix_mul(A, B, C, 2, 0, 4)` is not `0*0 + 17*31 + 34*62 + 51*93`. -/
theorem main_example_cell_not_7378 :
    (matrix_mul (main_src1 4) (main_src2 4) (zeros 4) 2 0 4).map (fun C => C.get 0 0) ≠
      some (0 * 0 + 17 * 31 + 34 * 62 + 51 * 93) := by
  decide

/-- C9 (amended): for `n = 4`, `A[i][j] = (i*31 + j*17) % 100`, `B[i][j] = (i*17 + j*31) % 100`,
an all-zero `C` and tile size `2`, the call `matrix_mul(A, B, C, 2, 0, 4)` produces
`C[0][0] = 0*0 + 17*17 + 34*34 + 51*51 = 4046`: column `0` of `B` is `0, 17, 34, 51`. -/
theorem main_example_cell_is_4046 :
    (matrix_mul (main_src1 4) (main_src2 4) (zeros 4) 2 0 4).map (fun C => C.get 0 0) =
        some (0 * 0 + 17 * 17 + 34 * 34 + 51 * 51) ∧
      (List.range 4).map (fun k => (main_src1 4).get 0 k) = [0, 17, 34, 51] ∧
      (List.range 4).map (fun k => (main_src2 4).get k 0) = [0, 17, 34, 51] := by
  decide

/-- C4 (the code at the failing input): with `n = 2` and tile size `2`, the call
`matrix_mul(A, B, C, 2, 0, 1)` for the span `[0, 1)` on an all-zero `C` also writes row `1`,
which lies outside the span: the `i` loop is bounded by `src1.size()`, not by `end`. -/
theorem matrix_mul_writes_past_span_end :
    matrix_mul (main_src1 2) (main_src2 2) (zeros 2) 2 0 1 = some [[289, 816], [816, 3265]] ∧
      zeros 2 = [[0, 0], [0, 0]] := by
  decide

/-- C2 (the code at the failing input): with `n = 2`, tile size `2` and `2` workers, the
spans are `[0, 1)` and `[1, 2)`; in either order of the two kernel calls row `1` is accumulated
twice, and the result differs from that of the single-span call. -/
theorem parallel_differs_from_single_span :
    worker_spans 2 2 = some [(0, 1), (1, 2)] ∧
      parallel_computing_optimized (main_src1 2) (main_src2 2) (zeros 2) 2 2 =
        some [[289, 816], [1632, 6530]] ∧
      run_workers (main_src1 2) (main_src2 2) 2 [(1, 2), (0, 1)] (zeros 2) =
        some [[289, 816], [1632, 6530]] ∧
      matrix_mul (main_src1 2) (main_src2 2) (zeros 2) 2 0 2 =
        some [[289, 816], [816, 3265]] := by
  decide

/-! ## Row partitioning -/

theorem launch_loop_getElem? (n r : Nat) : ∀ cnt t i, (t + cnt) * r < size_t_mod →
    (launch_loop n r cnt t)[i]? =
      if i < cnt ∧ (t + i) * r < n then some ((t + i) * r, min ((t + i + 1) * r) n)
      else none := by
  intro cnt
  induction cnt with
  | zero => intro t i _; simp [launch_loop]
  | succ c ih =>
    intro t i hbd
    have b1 : t * r ≤ (t + (c + 1)) * r := Nat.mul_le_mul_right r (by omega)
    have b2 : (t + 1) * r ≤ (t + (c + 1)) * r := Nat.mul_le_mul_right r (by omega)
    have m1 : (t * r) % size_t_mod = t * r := Nat.mod_eq_of_lt (by omega)
    have m2 : ((t + 1) * r) % size_t_mod = (t + 1) * r := Nat.mod_eq_of_lt (by omega)
    have hbd' : (t + 1 + c) * r < size_t_mod := by
      have e : t + 1 + c = t + (c + 1) := by omega
      rw [e]; exact hbd
    unfold launch_loop
    simp only [m1, m2]
    by_cases hb : n ≤ t * r
    · have hmono : t * r ≤ (t + i) * r := Nat.mul_le_mul_right r (Nat.le_add_right t i)
      have hc : ¬ (i < c + 1 ∧ (t + i) * r < n) := by omega
      simp only [ge_iff_le, hb, if_true, if_neg hc]
      rfl
    · simp only [ge_iff_le, hb, if_false]
      cases i with
      | zero =>
        have hc : 0 < c + 1 ∧ (t + 0) * r < n := ⟨by omega, by simpa using hb⟩
        rw [if_pos hc]
        simp
      | succ i =>
        rw [List.getElem?_cons_succ, ih (t + 1) i hbd']
        have e1 : t + 1 + i = t + (i + 1) := by omega
        rw [e1]
        by_cases hc : i < c ∧ (t + (i + 1)) * r < n
        · have hc' : i + 1 < c + 1 ∧ (t + (i + 1)) * r < n := ⟨by omega, hc.2⟩
          rw [if_pos hc, if_pos hc']
        · have hc' : ¬ (i + 1 < c + 1 ∧ (t + (i + 1)) * r < n) := by omega
          rw [if_neg hc, if_neg hc']

theorem launch_loop_lt_length (n r cnt i : Nat) (hbd : cnt * r < size_t_mod) :
    i < (launch_loop n r cnt 0).length ↔ i < cnt ∧ i * r < n := by
  have h := launch_loop_getElem? n r cnt 0 i (by rw [Nat.zero_add]; exact hbd)
  rw [Nat.zero_add] at h
  constructor
  · intro hi
    by_contra hc
    rw [if_neg hc, List.getElem?_eq_none_iff] at h
    omega
  · intro hc
    by_contra hi
    rw [if_pos hc, List.getElem?_eq_none (by omega)] at h
    exact Option.noConfusion h

theorem launch_loop_getElem (n r cnt i : Nat) (hbd : cnt * r < size_t_mod)
    (hi : i < (launch_loop n r cnt 0).length) :
    (launch_loop n r cnt 0)[i] = (i * r, min ((i + 1) * r) n) := by
  have h := launch_loop_getElem? n r cnt 0 i (by rw [Nat.zero_add]; exact hbd)
  rw [Nat.zero_add, if_pos ((launch_loop_lt_length n r cnt i hbd).1 hi),
    List.getElem?_eq_getElem hi] at h
  exact Option.some.inj h

/-- The number of rows per worker, `(n + w - 1) / w`, is the ceiling of `n / w`. -/
theorem rows_per_thread_is_ceil (n w : Nat) (hw : 0 < w) :
    n ≤ (n + w - 1) / w * w ∧ ∀ r', n ≤ r' * w → (n + w - 1) / w ≤ r' := by
  constructor
  · have h1 := Nat.div_add_mod (n + w - 1) w
    have h2 := Nat.mod_lt (n + w - 1) hw
    rw [Nat.mul_comm] at h1
    omega
  · intro r' hr'
    have : (n + w - 1) / w < r' + 1 := by
      rw [Nat.div_lt_iff_lt_mul hw]
      have : (r' + 1) * w = r' * w + w := by ring
      omega
    omega

theorem rows_per_thread_pos (n w : Nat) (hn : 0 < n) (hw : 0 < w) : 0 < (n + w - 1) / w :=
  Nat.div_pos (by omega) hw

/-- Without overflow in `matrix_size + num_threads - 1`, no product of the launch loop
overflows either. -/
theorem launch_products_bounded (n w : Nat) (hbound : n + w - 1 < size_t_mod) :
    w * ((n + w - 1) / w) < size_t_mod := by
  have := Nat.mul_div_le (n + w - 1) w
  omega

/-- Without overflow in `matrix_size + num_threads - 1`, the spans are those of the launch loop
for `rows_per_thread = (n + w - 1) / w`. -/
theorem worker_spans_eq (n w : Nat) (hw : 1 ≤ w) (hbound : n + w - 1 < size_t_mod) :
    worker_spans n w = some (launch_loop n ((n + w - 1) / w) w 0) := by
  have hw0 : w ≠ 0 := by omega
  simp [worker_spans, hw0, Nat.mod_eq_of_lt hbound]

theorem mem_launch_loop {n r cnt : Nat} (hbd : cnt * r < size_t_mod) {sp : Nat × Nat}
    (h : sp ∈ launch_loop n r cnt 0) :
    ∃ t, t < cnt ∧ t * r < n ∧ sp = (t * r, min ((t + 1) * r) n) := by
  obtain ⟨t, ht, hget⟩ := List.getElem_of_mem h
  have hc := (launch_loop_lt_length n r cnt t hbd).1 ht
  exact ⟨t, hc.1, hc.2, by rw [← hget, launch_loop_getElem n r cnt t hbd]⟩

/-! ### A thread count for which `rows_per_thread` wraps to zero -/

/-- With `rows_per_thread = 0` and at least one row, every iteration of the launch loop hands
out the empty span `(0, 0)` and the `break` never fires. -/
theorem launch_loop_zero_rows (n : Nat) (hn : 0 < n) : ∀ cnt t,
    launch_loop n 0 cnt t = List.replicate cnt (0, 0) := by
  intro cnt
  induction cnt with
  | zero => intro t; rfl
  | succ c ih =>
    intro t
    have hb : ¬ (n ≤ 0) := by omega
    unfold launch_loop
    simp only [Nat.mul_zero, Nat.zero_mod, ge_iff_le, hb, if_false, Nat.zero_min, ih (t + 1)]
    rfl

/-- The kernel call for the empty span `(0, 0)` changes nothing. -/
theorem matrix_mul_empty_span (A B C : Matrix) (bs : Nat) : matrix_mul A B C bs 0 0 = some C := by
  simp [matrix_mul, forBlocks, loopBlocks]

theorem run_workers_empty_spans (A B C : Matrix) (bs : Nat) : ∀ cnt,
    run_workers A B bs (List.replicate cnt (0, 0)) C = some C := by
  intro cnt
  induction cnt with
  | zero => rfl
  | succ c ih =>
    show (matrix_mul A B C bs 0 0).bind (run_workers A B bs (List.replicate c (0, 0))) = some C
    rw [matrix_mul_empty_span]
    exact ih

/-- The driver is the sequence of kernel calls for the spans of the launch loop. -/
theorem parallel_computing_optimized_of_spans {A B C : Matrix} {bs n w : Nat}
    {spans : List (Nat × Nat)} (hA : A.length = n) (h : worker_spans n w = some spans) :
    parallel_computing_optimized A B C bs w = run_workers A B bs spans C := by
  unfold parallel_computing_optimized
  rw [hA, h]
  rfl

/-- The spans at `n = 2` and `num_threads = 2^64 - 1` (the thread count that `-t -1` gives):
`2 + (2^64 - 1) - 1` wraps to `0`, `rows_per_thread` is `0`, and all `2^64 - 1` spans are the
empty span `(0, 0)`. -/
theorem worker_spans_wrapped :
    worker_spans 2 18446744073709551615 =
      some (List.replicate 18446744073709551615 (0, 0)) := by
  have h0 : (2 + 18446744073709551615 - 1) % size_t_mod / 18446744073709551615 = 0 := by
    decide
  have hw : ¬ (18446744073709551615 = 0) := by decide
  unfold worker_spans
  simp only [hw, if_false, h0]
  rw [launch_loop_zero_rows 2 (by decide)]

/-- C3 (as stated, refuted): at `n = 2` and `w = 2^64 - 1` the workers get the span `(0, 0)`,
which is empty, and no span contains row `0`; the spans do not cover `[0, 2)`. -/
theorem worker_spans_empty_at_wrap :
    1 ≤ 18446744073709551615 ∧
    ∃ spans, worker_spans 2 18446744073709551615 = some spans ∧
      (0, 0) ∈ spans ∧ ¬ ∃ sp ∈ spans, sp.1 ≤ 0 ∧ 0 < sp.2 := by
  refine ⟨by decide, _, worker_spans_wrapped, ?_, ?_⟩
  · rw [List.mem_replicate]
    exact ⟨by decide, rfl⟩
  · rintro ⟨sp, hm, _, h2⟩
    rw [List.mem_replicate] at hm
    rw [hm.2] at h2
    exact absurd h2 (by decide)

/-- C3 (amended): for every dimension `n` and worker count `w ≥ 1` with `n + w - 1 < 2^64` the
spans `(start_row, end_row)` of `parallel_computing_optimized` satisfy `start < end ≤ n`, are
pairwise disjoint, have union exactly `[0, n)`, and none starts at or after `n`. -/
theorem worker_spans_partition (n w : Nat) (hw : 1 ≤ w) (hbound : n + w - 1 < size_t_mod) :
    ∃ spans, worker_spans n w = some spans ∧
      (∀ sp ∈ spans, 0 ≤ sp.1 ∧ sp.1 < sp.2 ∧ sp.2 ≤ n) ∧
      spans.Pairwise (fun a b => ∀ x, ¬ ((a.1 ≤ x ∧ x < a.2) ∧ (b.1 ≤ x ∧ x < b.2))) ∧
      (∀ x, x < n ↔ ∃ sp ∈ spans, sp.1 ≤ x ∧ x < sp.2) ∧
      (∀ sp ∈ spans, ¬ (n ≤ sp.1)) := by
  have hbd := launch_products_bounded n w hbound
  refine ⟨launch_loop n ((n + w - 1) / w) w 0, worker_spans_eq n w hw hbound, ?_, ?_, ?_, ?_⟩
  · intro sp hsp
    obtain ⟨t, _, htn, rfl⟩ := mem_launch_loop hbd hsp
    have hr := rows_per_thread_pos n w (by omega) hw
    have e : (t + 1) * ((n + w - 1) / w) = t * ((n + w - 1) / w) + (n + w - 1) / w := by ring
    simp only
    omega
  · rw [List.pairwise_iff_getElem]
    intro i j hi hj hij x
    rw [launch_loop_getElem n _ w i hbd hi, launch_loop_getElem n _ w j hbd hj]
    have hmono : (i + 1) * ((n + w - 1) / w) ≤ j * ((n + w - 1) / w) :=
      Nat.mul_le_mul_right _ (by omega)
    simp only
    omega
  · intro x
    constructor
    · intro hx
      have hr := rows_per_thread_pos n w (by omega) hw
      have hceil := (rows_per_thread_is_ceil n w hw).1
      have h1 := Nat.div_add_mod x ((n + w - 1) / w)
      have h2 := Nat.mod_lt x hr
      rw [Nat.mul_comm] at h1
      have hlt : x / ((n + w - 1) / w) < w := by
        rw [Nat.div_lt_iff_lt_mul hr, Nat.mul_comm]; omega
      have hlen : x / ((n + w - 1) / w) < (launch_loop n ((n + w - 1) / w) w 0).length :=
        (launch_loop_lt_length n _ w _ hbd).2 ⟨hlt, by omega⟩
      refine ⟨_, List.getElem_mem hlen, ?_⟩
      rw [launch_loop_getElem n _ w _ hbd hlen]
      have e : (x / ((n + w - 1) / w) + 1) * ((n + w - 1) / w)
          = x / ((n + w - 1) / w) * ((n + w - 1) / w) + (n + w - 1) / w := by ring
      simp only
      omega
    · rintro ⟨sp, hsp, _, h2⟩
      obtain ⟨t, _, _, rfl⟩ := mem_launch_loop hbd hsp
      simp only at h2
      omega
  · intro sp hsp
    obtain ⟨t, _, htn, rfl⟩ := mem_launch_loop hbd hsp
    simp only
    omega

theorem worker_spans_partition_witness :
    (1 ≤ 3 ∧ 10 + 3 - 1 < size_t_mod) ∧
    ∃ spans, worker_spans 10 3 = some spans ∧
      (∀ sp ∈ spans, 0 ≤ sp.1 ∧ sp.1 < sp.2 ∧ sp.2 ≤ 10) ∧
      spans.Pairwise (fun a b => ∀ x, ¬ ((a.1 ≤ x ∧ x < a.2) ∧ (b.1 ≤ x ∧ x < b.2))) ∧
      (∀ x, x < 10 ↔ ∃ sp ∈ spans, sp.1 ≤ x ∧ x < sp.2) ∧
      (∀ sp ∈ spans, ¬ (10 ≤ sp.1)) :=
  ⟨by decide, worker_spans_partition 10 3 (by decide) (by decide)⟩

/-- C5 (as stated, refuted): at `n = 2` and `w = 2^64 - 1` the ceiling of `n / w` is `1`, which
would give the two workers `[0, 1)` and `[1, 2)`; the code launches `2^64 - 1` workers and the
first one gets `[0, 0)`. -/
theorem worker_spans_not_ceil_at_wrap :
    (1 ≤ 2 ∧ 1 ≤ 18446744073709551615) ∧
    (2 ≤ 1 * 18446744073709551615 ∧ ∀ r', 2 ≤ r' * 18446744073709551615 → 1 ≤ r') ∧
    ∃ spans, worker_spans 2 18446744073709551615 = some spans ∧
      spans.length = 18446744073709551615 ∧
      spans[0]? = some (0, 0) ∧ spans[0]? ≠ some (0 * 1, min ((0 + 1) * 1) 2) := by
  refine ⟨by decide, ⟨by decide, ?_⟩, _, worker_spans_wrapped, List.length_replicate _ _, ?_⟩
  · intro r' hr'
    by_contra hc
    have : r' = 0 := by omega
    subst this
    exact absurd hr' (by decide)
  · have hget : (List.replicate 18446744073709551615 ((0 : Nat), (0 : Nat)))[0]? = some (0, 0) := by
      rw [List.getElem?_replicate]
      exact if_pos (by decide)
    rw [hget]
    exact ⟨rfl, by decide⟩

/-- C5 (amended): for `n ≥ 1` and `w ≥ 1` with `n + w - 1 < 2^64`, with
`rowsPerWorker = ceil(n / w)`, the launched workers are exactly `t = 0, 1, ...` with
`t * rowsPerWorker < n`; worker `t` gets `[t * rowsPerWorker, min((t+1) * rowsPerWorker, n))`;
every span but the last has `rowsPerWorker` rows and the last, which ends at `n`, has at most
that many.  For `n = 100`, `w = 7` the spans are
`[0,15), [15,30), [30,45), [45,60), [60,75), [75,90), [90,100)`. -/
theorem worker_spans_policy (n w : Nat) (hn : 1 ≤ n) (hw : 1 ≤ w)
    (hbound : n + w - 1 < size_t_mod) :
    ∃ r spans,
      (n ≤ r * w ∧ ∀ r', n ≤ r' * w → r ≤ r') ∧
      worker_spans n w = some spans ∧
      (∀ t, t < spans.length ↔ t * r < n) ∧
      (∀ t, t < spans.length → spans[t]? = some (t * r, min ((t + 1) * r) n)) ∧
      (∀ t, t + 1 < spans.length → min ((t + 1) * r) n = t * r + r) ∧
      (∀ t, t + 1 = spans.length → min ((t + 1) * r) n = n ∧ n - t * r ≤ r) ∧
      worker_spans 100 7 =
        some [(0, 15), (15, 30), (30, 45), (45, 60), (60, 75), (75, 90), (90, 100)] := by
  have hbd := launch_products_bounded n w hbound
  have hr := rows_per_thread_pos n w hn hw
  have hceil := rows_per_thread_is_ceil n w hw
  have hlen : ∀ t, t < (launch_loop n ((n + w - 1) / w) w 0).length ↔
      t * ((n + w - 1) / w) < n := by
    intro t
    rw [launch_loop_lt_length n _ w t hbd]
    constructor
    · exact fun h => h.2
    · intro h
      refine ⟨?_, h⟩
      by_contra hc
      have : w * ((n + w - 1) / w) ≤ t * ((n + w - 1) / w) :=
        Nat.mul_le_mul_right _ (by omega)
      have := hceil.1
      rw [Nat.mul_comm] at this
      omega
  refine ⟨(n + w - 1) / w, launch_loop n ((n + w - 1) / w) w 0, hceil,
    worker_spans_eq n w hw hbound, hlen, ?_, ?_, ?_, by decide⟩
  · intro t ht
    rw [List.getElem?_eq_getElem ht, launch_loop_getElem n _ w t hbd]
  · intro t ht
    have h1 := (hlen (t + 1)).1 ht
    have e : (t + 1) * ((n + w - 1) / w) = t * ((n + w - 1) / w) + (n + w - 1) / w := by ring
    omega
  · intro t ht
    have h1 := (hlen t).1 (by omega)
    have h2 : ¬ ((t + 1) * ((n + w - 1) / w) < n) := fun h => by
      have := (hlen (t + 1)).2 h
      omega
    have e : (t + 1) * ((n + w - 1) / w) = t * ((n + w - 1) / w) + (n + w - 1) / w := by ring
    omega

theorem worker_spans_policy_witness :
    (1 ≤ 100 ∧ 1 ≤ 7 ∧ 100 + 7 - 1 < size_t_mod) ∧
    ∃ r spans,
      (100 ≤ r * 7 ∧ ∀ r', 100 ≤ r' * 7 → r ≤ r') ∧
      worker_spans 100 7 = some spans ∧
      (∀ t, t < spans.length ↔ t * r < 100) ∧
      (∀ t, t < spans.length → spans[t]? = some (t * r, min ((t + 1) * r) 100)) ∧
      (∀ t, t + 1 < spans.length → min ((t + 1) * r) 100 = t * r + r) ∧
      (∀ t, t + 1 = spans.length → min ((t + 1) * r) 100 = 100 ∧ 100 - t * r ≤ r) ∧
      worker_spans 100 7 =
        some [(0, 15), (15, 30), (30, 45), (45, 60), (60, 75), (75, 90), (90, 100)] :=
  ⟨by decide, worker_spans_policy 100 7 (by decide) (by decide) (by decide)⟩

/-! ## The tuner -/

/-- With a line of at least `4` bytes the tuner divides by a positive number and returns the
rounded edge clamped to `[32, 512]`. -/
theorem calculate_optimal_block_size_eq (cache : CacheInfo) (h : 4 ≤ cache.line_size) :
    calculate_optimal_block_size cache =
      some (min 512 (max 32
        ((Nat.sqrt (cache.l1_cache_size / 3 / 4) + cache.line_size / 4 - 1) /
          (cache.line_size / 4) * (cache.line_size / 4)))) := by
  have hle : cache.line_size / 4 ≠ 0 := by omega
  unfold calculate_optimal_block_size
  simp only [hle, if_false, Option.some.injEq]
  split_ifs <;> omega

/-- With a line shorter than `4` bytes the tuner divides by zero. -/
theorem calculate_optimal_block_size_eq_none (cache : CacheInfo) (h : cache.line_size < 4) :
    calculate_optimal_block_size cache = none := by
  have hle : cache.line_size / 4 = 0 := by omega
  unfold calculate_optimal_block_size
  simp only [hle, if_true]

/-- The tuner's result once the integer square root `q` of the element count is known. -/
theorem calculate_optimal_block_size_of_sqrt (cache : CacheInfo) (q : Nat)
    (h : 4 ≤ cache.line_size)
    (hq : q * q ≤ cache.l1_cache_size / 3 / 4 ∧ cache.l1_cache_size / 3 / 4 < (q + 1) * (q + 1)) :
    calculate_optimal_block_size cache =
      some (min 512 (max 32
        ((q + cache.line_size / 4 - 1) / (cache.line_size / 4) * (cache.line_size / 4)))) := by
  rw [calculate_optimal_block_size_eq cache h, ← Nat.eq_sqrt.2 hq]

/-- C6 (as stated, refuted): a geometry with positive fields, `line_size = 4096`, for which the
tile size `512` is not a multiple of `line_size / 4 = 1024`. -/
theorem tuner_result_not_line_multiple :
    (0 < 32768 ∧ 0 < 262144 ∧ 0 < 8388608 ∧ 0 < 4096) ∧
      calculate_optimal_block_size ⟨32768, 262144, 8388608, 4096⟩ = some 512 ∧
      ¬ (4096 / 4 ∣ 512) :=
  ⟨by decide,
    (calculate_optimal_block_size_of_sqrt ⟨32768, 262144, 8388608, 4096⟩ 52 (by decide)
      (by decide)).trans (by decide),
    by decide⟩

/-- C6 (amended): for every cache geometry with `line_size ≥ 4` the tuner returns a tile size
that is `32`, `512`, or a multiple of `line_size / 4`; it is a multiple of `line_size / 4`
whenever `line_size / 4` divides `32`. -/
theorem tuner_result_line_multiple_or_clamped (cache : CacheInfo) (h : 4 ≤ cache.line_size) :
    ∃ b, calculate_optimal_block_size cache = some b ∧
      (b = 32 ∨ b = 512 ∨ cache.line_size / 4 ∣ b) ∧
      (cache.line_size / 4 ∣ 32 → cache.line_size / 4 ∣ b) := by
  refine ⟨_, calculate_optimal_block_size_eq cache h, ?_⟩
  have hd : cache.line_size / 4 ∣
      (Nat.sqrt (cache.l1_cache_size / 3 / 4) + cache.line_size / 4 - 1) /
        (cache.line_size / 4) * (cache.line_size / 4) := Dvd.intro_left _ rfl
  generalize (Nat.sqrt (cache.l1_cache_size / 3 / 4) + cache.line_size / 4 - 1) /
        (cache.line_size / 4) * (cache.line_size / 4) = X at hd ⊢
  have hcases : min 512 (max 32 X) = 32 ∨ min 512 (max 32 X) = 512 ∨ min 512 (max 32 X) = X := by
    omega
  constructor
  · rcases hcases with h1 | h1 | h1
    · exact Or.inl h1
    · exact Or.inr (Or.inl h1)
    · exact Or.inr (Or.inr (by rw [h1]; exact hd))
  · intro h32
    rcases hcases with h1 | h1 | h1
    · rw [h1]; exact h32
    · rw [h1]; exact Dvd.dvd.trans h32 (by decide)
    · rw [h1]; exact hd

theorem tuner_result_line_multiple_or_clamped_witness :
    4 ≤ (CacheInfo.mk 65536 4194304 16777216 128).line_size ∧
    ∃ b, calculate_optimal_block_size ⟨65536, 4194304, 16777216, 128⟩ = some b ∧
      (b = 32 ∨ b = 512 ∨ (CacheInfo.mk 65536 4194304 16777216 128).line_size / 4 ∣ b) ∧
      ((CacheInfo.mk 65536 4194304 16777216 128).line_size / 4 ∣ 32 →
        (CacheInfo.mk 65536 4194304 16777216 128).line_size / 4 ∣ b) :=
  ⟨by decide, tuner_result_line_multiple_or_clamped ⟨65536, 4194304, 16777216, 128⟩ (by decide)⟩

/-- C7 (as stated, refuted): a geometry with positive fields, `line_size = 2`, for which
`line_size / sizeof(int)` is `0` and the rounding step divides by zero. -/
theorem tuner_divides_by_zero_on_short_line :
    (0 < 32768 ∧ 0 < 262144 ∧ 0 < 8388608 ∧ 0 < 2) ∧
      calculate_optimal_block_size ⟨32768, 262144, 8388608, 2⟩ = none :=
  ⟨by decide, calculate_optimal_block_size_eq_none _ (by decide)⟩

/-- C7 (amended): for every cache geometry with `line_size ≥ 4` (and element size `4`) the tuner
computes without division by zero and its tile size lies in `[32, 512]`. -/
theorem tuner_result_in_range (cache : CacheInfo) (h : 4 ≤ cache.line_size) :
    ∃ b, calculate_optimal_block_size cache = some b ∧ 32 ≤ b ∧ b ≤ 512 := by
  refine ⟨_, calculate_optimal_block_size_eq cache h, ?_⟩
  omega

theorem tuner_result_in_range_witness :
    4 ≤ (CacheInfo.mk 49152 1310720 25165824 64).line_size ∧
    ∃ b, calculate_optimal_block_size ⟨49152, 1310720, 25165824, 64⟩ = some b ∧
      32 ≤ b ∧ b ≤ 512 :=
  ⟨by decide, tuner_result_in_range ⟨49152, 1310720, 25165824, 64⟩ (by decide)⟩

/-- C8 (as stated, refuted): the tuner substitutes nothing.  On the all-zero geometry it divides
by zero, and with only the L1 size zero it returns `32`, not the `64` of the default geometry. -/
theorem tuner_zero_geometry_not_tolerated :
    calculate_optimal_block_size ⟨0, 0, 0, 0⟩ = none ∧
      calculate_optimal_block_size ⟨0, 262144, 8388608, 64⟩ = some 32 :=
  ⟨calculate_optimal_block_size_eq_none _ (by decide),
    (calculate_optimal_block_size_of_sqrt ⟨0, 262144, 8388608, 64⟩ 0 (by decide)
      (by decide)).trans (by decide)⟩

/-- C8 (amended): the defaults 32768 / 262144 / 8388608 / 64 are the member initialisers of
`CacheInfo`; for that geometry the tuner computes without division by zero and returns `64`
for 4-byte elements.  The L2 and L3 sizes are not read, so any value there, zero included,
gives the same `64`. -/
theorem tuner_default_geometry (l2 l3 : Nat) :
    ({} : CacheInfo) = ⟨32768, 262144, 8388608, 64⟩ ∧
      calculate_optimal_block_size {} = some 64 ∧
      calculate_optimal_block_size ⟨32768, l2, l3, 64⟩ = some 64 := by
  refine ⟨rfl, ?_, ?_⟩
  · exact (calculate_optimal_block_size_of_sqrt {} 52 (by decide) (by decide)).trans (by decide)
  · have h1 : 4 ≤ (CacheInfo.mk 32768 l2 l3 64).line_size := by
      show 4 ≤ 64
      decide
    have h2 : 52 * 52 ≤ (CacheInfo.mk 32768 l2 l3 64).l1_cache_size / 3 / 4 ∧
        (CacheInfo.mk 32768 l2 l3 64).l1_cache_size / 3 / 4 < (52 + 1) * (52 + 1) := by
      show 52 * 52 ≤ 32768 / 3 / 4 ∧ 32768 / 3 / 4 < (52 + 1) * (52 + 1)
      decide
    rw [calculate_optimal_block_size_of_sqrt _ 52 h1 h2]
    show some (min 512 (max 32 ((52 + 64 / 4 - 1) / (64 / 4) * (64 / 4)))) = some 64
    decide

/-! ## Kernel calls on exact spans, one after another -/

/-- Two square matrices of one dimension with the same cells are the same matrix. -/
theorem matrix_ext {n : Nat} {C D : Matrix} (hC : Square n C) (hD : Square n D)
    (h : ∀ i j, i < n → j < n → C.get i j = D.get i j) : C = D := by
  apply List.ext_getElem (by rw [hC.1, hD.1])
  intro i h1 h2
  have hr1 : C[i].length = n := hC.2 _ (List.getElem_mem _)
  have hr2 : D[i].length = n := hD.2 _ (List.getElem_mem _)
  apply List.ext_getElem (by rw [hr1, hr2])
  intro j h3 h4
  have hij := h i j (by rw [← hC.1]; exact h1) (by rw [← hr1]; exact h3)
  unfold Matrix.get at hij
  simpa [List.getD_eq_getElem?_getD, List.getElem?_eq_getElem, h1, h2, h3, h4] using hij

/-- A span is exact for a block size when the row tiles of the kernel stop at the span end:
the span length is a multiple of the block size, or the span ends at the last row. -/
theorem matrix_mul_exact {n : Nat} {A B C : Matrix} (hA : A.length = n) (hB : B.length = n)
    (hC : Square n C) {bs : Nat} (hbs : 0 < bs) {s e : Nat} (hse : s ≤ e) (hen : e ≤ n)
    (hex : bs ∣ (e - s) ∨ e = n) :
    ∃ C', matrix_mul A B C bs s e = some C' ∧ Square n C' ∧
      ∀ i j, i < n → j < n →
        C'.get i j = if s ≤ i ∧ i < e then wrapInt (C.get i j + dotProduct A B n i j)
          else C.get i j := by
  obtain ⟨x, C', hr, hsq, ⟨hx1, hx2, hx3, hx4⟩, hval⟩ := matrix_mul_effect hA hB hC hbs hse hen
  refine ⟨C', hr, hsq, ?_⟩
  have hmin : min x n = e := by
    rcases hex with hd | hn
    · have hd' : bs ∣ (x - s) - (e - s) := Nat.dvd_sub' hx4 hd
      have hlt : (x - s) - (e - s) < bs := by omega
      have h0 : (x - s) - (e - s) = 0 := Nat.eq_zero_of_dvd_of_lt hd' hlt
      omega
    · omega
  intro i j hi hj
  rw [hval i j hi hj, hmin]

/-- The kernel calls for pairwise disjoint exact spans, applied one after another in the order
of the list, add the canonical product once to every row of every span and leave the other
rows alone. -/
theorem run_workers_effect {n : Nat} {A B : Matrix} (hA : A.length = n) (hB : B.length = n)
    {bs : Nat} (hbs : 0 < bs) :
    ∀ (spans : List (Nat × Nat)) (C : Matrix), Square n C →
      (∀ sp ∈ spans, sp.1 ≤ sp.2 ∧ sp.2 ≤ n ∧ (bs ∣ (sp.2 - sp.1) ∨ sp.2 = n)) →
      spans.Pairwise SpansDisjoint →
      ∃ C', run_workers A B bs spans C = some C' ∧ Square n C' ∧
        ∀ i j, i < n → j < n →
          C'.get i j = if ∃ sp ∈ spans, sp.1 ≤ i ∧ i < sp.2
            then wrapInt (C.get i j + dotProduct A B n i j) else C.get i j := by
  intro spans
  induction spans with
  | nil =>
    intro C hC _ _
    exact ⟨C, rfl, hC, fun i j _ _ => by simp⟩
  | cons sp rest ih =>
    intro C hC hsp hpw
    obtain ⟨s, e⟩ := sp
    have h1 := hsp (s, e) (List.mem_cons_self _ _)
    obtain ⟨C1, hr1, hsq1, hval1⟩ := matrix_mul_exact hA hB hC hbs h1.1 h1.2.1 h1.2.2
    rw [List.pairwise_cons] at hpw
    obtain ⟨C2, hr2, hsq2, hval2⟩ := ih C1 hsq1
      (fun sp hm => hsp sp (List.mem_cons_of_mem _ hm)) hpw.2
    refine ⟨C2, by simp [run_workers, hr1, hr2], hsq2, ?_⟩
    intro i j hi hj
    rw [hval2 i j hi hj, hval1 i j hi hj]
    by_cases hin : ∃ sp ∈ rest, sp.1 ≤ i ∧ i < sp.2
    · obtain ⟨sp, hm, hlo, hhi⟩ := hin
      have hdis := hpw.1 sp hm i
      have hnot : ¬ (s ≤ i ∧ i < e) := fun hc => hdis ⟨hc, hlo, hhi⟩
      have hex : ∃ sp ∈ (s, e) :: rest, sp.1 ≤ i ∧ i < sp.2 :=
        ⟨sp, List.mem_cons_of_mem _ hm, hlo, hhi⟩
      rw [if_pos ⟨sp, hm, hlo, hhi⟩, if_neg hnot, if_pos hex]
    · rw [if_neg hin]
      by_cases hc : s ≤ i ∧ i < e
      · have hex : ∃ sp ∈ (s, e) :: rest, sp.1 ≤ i ∧ i < sp.2 :=
          ⟨(s, e), List.mem_cons_self _ _, hc.1, hc.2⟩
        rw [if_pos hc, if_pos hex]
      · have hex : ¬ ∃ sp ∈ (s, e) :: rest, sp.1 ≤ i ∧ i < sp.2 := by
          rintro ⟨sp, hm, hlo, hhi⟩
          rcases List.mem_cons.1 hm with h | h
          · subst h; exact hc ⟨hlo, hhi⟩
          · exact hin ⟨sp, h, hlo, hhi⟩
        rw [if_neg hc, if_neg hex]

theorem spansDisjoint_symm {a c : Nat × Nat} (h : SpansDisjoint a c) : SpansDisjoint c a :=
  fun x hx => h x ⟨hx.2, hx.1⟩

theorem spansDisjoint_of_le {a c : Nat × Nat} (h : a.2 ≤ c.1) : SpansDisjoint a c := by
  intro x hx
  omega

theorem launch_loop_pairwise (n r cnt : Nat) (hbd : cnt * r < size_t_mod) :
    (launch_loop n r cnt 0).Pairwise SpansDisjoint := by
  rw [List.pairwise_iff_getElem]
  intro i j hi hj hij
  apply spansDisjoint_of_le
  rw [launch_loop_getElem n r cnt i hbd hi, launch_loop_getElem n r cnt j hbd hj]
  have hmono : (i + 1) * r ≤ j * r := Nat.mul_le_mul_right _ (by omega)
  simp only
  omega

/-- The row blocks of `parallel_computing_simple_multithread`: they start at the multiples of
the block size below `n`, each is `[i, min(i + b, n))`, they are ordered and cover `[0, n)`. -/
theorem simple_multithread_spans_spec (n b : Nat) (hb : 0 < b) :
    ∃ spans, simple_multithread_spans n b = some spans ∧
      spans.Pairwise (fun a c => a.2 ≤ c.1) ∧
      (∀ sp ∈ spans, b ∣ sp.1 ∧ sp.1 < n ∧ sp.2 = min (sp.1 + b) n) ∧
      (∀ r, r < n → ∃ sp ∈ spans, sp.1 ≤ r ∧ r < sp.2) := by
  unfold simple_multithread_spans
  obtain ⟨x', L, hr, hx', hI⟩ := forBlocks_inv
    (fun i threads => some (threads ++ [(i, min (i + b) n)]))
    (fun x (L : List (Nat × Nat)) => b ∣ x ∧ L.Pairwise (fun a c => a.2 ≤ c.1) ∧
      (∀ sp ∈ L, b ∣ sp.1 ∧ sp.1 < n ∧ sp.2 = min (sp.1 + b) n ∧ sp.2 ≤ x) ∧
      (∀ r, r < x → r < n → ∃ sp ∈ L, sp.1 ≤ r ∧ r < sp.2))
    hb 0 n []
    ⟨dvd_zero b, List.Pairwise.nil, fun sp hm => absurd hm (List.not_mem_nil sp),
      fun r hr _ => absurd hr (Nat.not_lt_zero r)⟩
    (by
      intro x L hx hI
      obtain ⟨h1, h2, h3, h4⟩ := hI
      refine ⟨_, rfl, Dvd.dvd.add h1 (dvd_refl b), ?_, ?_, ?_⟩
      · rw [List.pairwise_append]
        refine ⟨h2, List.pairwise_singleton _ _, ?_⟩
        intro a ha c hc
        rw [List.mem_singleton] at hc
        subst hc
        exact (h3 a ha).2.2.2
      · intro sp hm
        rcases List.mem_append.1 hm with h | h
        · obtain ⟨a1, a2, a3, a4⟩ := h3 sp h
          exact ⟨a1, a2, a3, by omega⟩
        · rw [List.mem_singleton] at h
          subst h
          exact ⟨h1, hx, rfl, by simp only; omega⟩
      · intro r hr hrn
        by_cases hrx : r < x
        · obtain ⟨sp, hm, hlo, hhi⟩ := h4 r hrx hrn
          exact ⟨sp, List.mem_append_left _ hm, hlo, hhi⟩
        · exact ⟨(x, min (x + b) n), List.mem_append_right _ (List.mem_singleton_self _),
            by simp only; omega, by simp only; omega⟩)
  obtain ⟨_, h2, h3, h4⟩ := hI
  exact ⟨L, hr, h2, fun sp hm => ⟨(h3 sp hm).1, (h3 sp hm).2.1, (h3 sp hm).2.2.1⟩,
    fun r hrn => h4 r (by omega) hrn⟩

/-- The kernel calls for pairwise disjoint exact spans that cover `[0, n)`, applied to the
all-zero matrix in any order, give the canonical product. -/
theorem run_workers_canonical {n : Nat} {A B : Matrix} (hA : A.length = n) (hB : B.length = n)
    {bs : Nat} (hbs : 0 < bs) {spans : List (Nat × Nat)}
    (hsp : ∀ sp ∈ spans, sp.1 ≤ sp.2 ∧ sp.2 ≤ n ∧ (bs ∣ (sp.2 - sp.1) ∨ sp.2 = n))
    (hpw : spans.Pairwise SpansDisjoint)
    (hcov : ∀ r, r < n → ∃ sp ∈ spans, sp.1 ≤ r ∧ r < sp.2)
    {order : List (Nat × Nat)} (hperm : order.Perm spans) :
    ∃ C, run_workers A B bs order (zeros n) = some C ∧ Square n C ∧
      ∀ i j, i < n → j < n → C.get i j = wrapInt (dotProduct A B n i j) := by
  obtain ⟨C, hr, hsq, hval⟩ := run_workers_effect hA hB hbs order (zeros n) (square_zeros n)
    (fun sp hm => hsp sp (hperm.mem_iff.1 hm))
    ((hperm.pairwise_iff (fun h => spansDisjoint_symm h)).2 hpw)
  refine ⟨C, hr, hsq, ?_⟩
  intro i j hi hj
  obtain ⟨sp, hm, hlo, hhi⟩ := hcov i hi
  rw [hval i j hi hj, if_pos ⟨sp, hperm.mem_iff.2 hm, hlo, hhi⟩, get_zeros, zero_add]

/-! ## Tile sizes beyond the matrix, and the two parallel drivers -/

/-- C11: a tile size larger than the matrix still gives the correct product.  For `n ≥ 1`,
square `n × n` matrices and a tile size `t > n`, the call `matrix_mul(A, B, C, t, 0, n)` on an
all-zero `C` returns with `C[i][j] = Σ_k A[i][k] * B[k][j]` (in `int` arithmetic) in every
cell. -/
theorem matrix_mul_oversized_tile_canonical (n t : Nat) (A B : Matrix) (hA : Square n A)
    (hB : Square n B) (_hn : 1 ≤ n) (ht : n < t) :
    ∃ C, matrix_mul A B (zeros n) t 0 n = some C ∧ Square n C ∧
      ∀ i j, i < n → j < n → C.get i j = wrapInt (dotProduct A B n i j) := by
  obtain ⟨C, hr, hsq, hval⟩ := matrix_mul_exact hA.1 hB.1 (square_zeros n)
    (show 0 < t by omega) (Nat.zero_le n) (Nat.le_refl n) (Or.inr rfl)
  refine ⟨C, hr, hsq, ?_⟩
  intro i j hi hj
  rw [hval i j hi hj, if_pos ⟨Nat.zero_le i, hi⟩, get_zeros, zero_add]

theorem matrix_mul_oversized_tile_canonical_witness :
    (Square 10 (main_src1 10) ∧ Square 10 (main_src2 10) ∧ 1 ≤ 10 ∧ 10 < 32) ∧
    ∃ C, matrix_mul (main_src1 10) (main_src2 10) (zeros 10) 32 0 10 = some C ∧ Square 10 C ∧
      ∀ i j, i < 10 → j < 10 →
        C.get i j = wrapInt (dotProduct (main_src1 10) (main_src2 10) 10 i j) :=
  ⟨by decide,
    matrix_mul_oversized_tile_canonical 10 32 (main_src1 10) (main_src2 10)
      (by decide) (by decide) (by decide) (by decide)⟩

/-- C12 (as stated, refuted): at `n = 2`, `w = 2^64 - 1` and tile size `1` (which divides
`ceil(n / w) = 1`) every worker of `parallel_computing_optimized` gets the empty span `(0, 0)`,
no row is accumulated, and `C` stays all zero although the canonical product is not. -/
theorem parallel_optimized_all_zero_at_wrap :
    (1 ≤ 2 ∧ 1 ≤ 18446744073709551615 ∧ 1 ≤ 1 ∧ 1 ∣ 1) ∧
    (Square 2 (main_src1 2) ∧ Square 2 (main_src2 2)) ∧
    (2 ≤ 1 * 18446744073709551615 ∧ ∀ r', 2 ≤ r' * 18446744073709551615 → 1 ≤ r') ∧
    parallel_computing_optimized (main_src1 2) (main_src2 2) (zeros 2) 1 18446744073709551615 =
      some (zeros 2) ∧
    (zeros 2).get 0 1 ≠ wrapInt (dotProduct (main_src1 2) (main_src2 2) 2 0 1) := by
  refine ⟨by decide, by decide, ⟨by decide, ?_⟩, ?_, by decide⟩
  · intro r' hr'
    by_contra hc
    have : r' = 0 := by omega
    subst this
    exact absurd hr' (by decide)
  · exact (parallel_computing_optimized_of_spans (by decide) worker_spans_wrapped).trans
      (run_workers_empty_spans _ _ _ _ _)

/-- C12 (amended): for `n ≥ 1`, `w ≥ 1` with `n + w - 1 < 2^64`, and a tile size `t ≥ 1` that
divides `rowsPerWorker = (n + w - 1) / w`, no worker of `parallel_computing_optimized` writes a row
outside its own span, and the workers' kernel calls, applied to an all-zero `C` one after
another in any order, return with the canonical product `C[i][j] = Σ_k A[i][k] * B[k][j]`
(in `int` arithmetic) in every cell; so does `parallel_computing_optimized` itself. -/
theorem parallel_optimized_canonical_of_dvd (n w t : Nat) (A B : Matrix) (hA : Square n A)
    (hB : Square n B) (hn : 1 ≤ n) (hw : 1 ≤ w) (hbound : n + w - 1 < size_t_mod) (ht : 1 ≤ t)
    (hdvd : t ∣ (n + w - 1) / w) :
    ∃ spans, worker_spans n w = some spans ∧
      (∀ sp ∈ spans, ∀ C0, Square n C0 →
        ∃ C1, matrix_mul A B C0 t sp.1 sp.2 = some C1 ∧
          ∀ i j, i < n → j < n → ¬ (sp.1 ≤ i ∧ i < sp.2) → C1.get i j = C0.get i j) ∧
      (∀ order, order.Perm spans →
        ∃ C, run_workers A B t order (zeros n) = some C ∧ Square n C ∧
          ∀ i j, i < n → j < n → C.get i j = wrapInt (dotProduct A B n i j)) ∧
      ∃ C, parallel_computing_optimized A B (zeros n) t w = some C ∧ Square n C ∧
        ∀ i j, i < n → j < n → C.get i j = wrapInt (dotProduct A B n i j) := by
  have hbd := launch_products_bounded n w hbound
  have hr := rows_per_thread_pos n w hn hw
  have hceil := (rows_per_thread_is_ceil n w hw).1
  have hspans := worker_spans_eq n w hw hbound
  have hsp : ∀ sp ∈ launch_loop n ((n + w - 1) / w) w 0,
      sp.1 ≤ sp.2 ∧ sp.2 ≤ n ∧ (t ∣ (sp.2 - sp.1) ∨ sp.2 = n) := by
    intro sp hm
    obtain ⟨u, _, hun, rfl⟩ := mem_launch_loop hbd hm
    have e : (u + 1) * ((n + w - 1) / w) = u * ((n + w - 1) / w) + (n + w - 1) / w := by ring
    refine ⟨by simp only; omega, by simp only; omega, ?_⟩
    by_cases hc : (u + 1) * ((n + w - 1) / w) ≤ n
    · left
      have : min ((u + 1) * ((n + w - 1) / w)) n - u * ((n + w - 1) / w) = (n + w - 1) / w := by
        omega
      simp only
      rw [this]
      exact hdvd
    · right
      simp only
      omega
  have hcov : ∀ r, r < n → ∃ sp ∈ launch_loop n ((n + w - 1) / w) w 0, sp.1 ≤ r ∧ r < sp.2 := by
    intro x hx
    have h1 := Nat.div_add_mod x ((n + w - 1) / w)
    have h2 := Nat.mod_lt x hr
    rw [Nat.mul_comm] at h1
    have hlt : x / ((n + w - 1) / w) < w := by
      rw [Nat.div_lt_iff_lt_mul hr, Nat.mul_comm]; omega
    have hlen : x / ((n + w - 1) / w) < (launch_loop n ((n + w - 1) / w) w 0).length :=
      (launch_loop_lt_length n _ w _ hbd).2 ⟨hlt, by omega⟩
    refine ⟨_, List.getElem_mem hlen, ?_⟩
    rw [launch_loop_getElem n _ w _ hbd hlen]
    have e : (x / ((n + w - 1) / w) + 1) * ((n + w - 1) / w)
        = x / ((n + w - 1) / w) * ((n + w - 1) / w) + (n + w - 1) / w := by ring
    simp only
    omega
  have hpw := launch_loop_pairwise n ((n + w - 1) / w) w hbd
  refine ⟨_, hspans, ?_, ?_, ?_⟩
  · intro sp hm C0 hC0
    obtain ⟨h1, h2, h3⟩ := hsp sp hm
    obtain ⟨C1, hr1, _, hval⟩ := matrix_mul_exact hA.1 hB.1 hC0 ht h1 h2 h3
    exact ⟨C1, hr1, fun i j hi hj hout => by rw [hval i j hi hj, if_neg hout]⟩
  · intro order hperm
    exact run_workers_canonical hA.1 hB.1 ht hsp hpw hcov hperm
  · have := run_workers_canonical hA.1 hB.1 ht hsp hpw hcov (List.Perm.refl _)
    unfold parallel_computing_optimized
    rw [hA.1, hspans]
    exact this

theorem parallel_optimized_canonical_of_dvd_witness :
    (Square 5 (main_src1 5) ∧ Square 5 (main_src2 5) ∧ 1 ≤ 5 ∧ 1 ≤ 2 ∧
      5 + 2 - 1 < size_t_mod ∧ 1 ≤ 3 ∧ 3 ∣ (5 + 2 - 1) / 2) ∧
    ∃ spans, worker_spans 5 2 = some spans ∧
      (∀ sp ∈ spans, ∀ C0, Square 5 C0 →
        ∃ C1, matrix_mul (main_src1 5) (main_src2 5) C0 3 sp.1 sp.2 = some C1 ∧
          ∀ i j, i < 5 → j < 5 → ¬ (sp.1 ≤ i ∧ i < sp.2) → C1.get i j = C0.get i j) ∧
      (∀ order, order.Perm spans →
        ∃ C, run_workers (main_src1 5) (main_src2 5) 3 order (zeros 5) = some C ∧ Square 5 C ∧
          ∀ i j, i < 5 → j < 5 →
            C.get i j = wrapInt (dotProduct (main_src1 5) (main_src2 5) 5 i j)) ∧
      ∃ C, parallel_computing_optimized (main_src1 5) (main_src2 5) (zeros 5) 3 2 = some C ∧
        Square 5 C ∧
        ∀ i j, i < 5 → j < 5 →
          C.get i j = wrapInt (dotProduct (main_src1 5) (main_src2 5) 5 i j) :=
  ⟨by decide,
    parallel_optimized_canonical_of_dvd 5 2 3 (main_src1 5) (main_src2 5)
      (by decide) (by decide) (by decide) (by decide) (by decide) (by decide) (by decide)⟩

/-- C13: for every `n` and block size `b ≥ 1`, the row blocks of
`parallel_computing_simple_multithread` are exactly `[i, min(i + b, n))` for the multiples `i`
of `b` below `n`; they are pairwise disjoint and cover `[0, n)`; and the kernel calls for
them, applied to an all-zero `C` one after another in any order, return the same matrix as the
single-span call `matrix_mul(A, B, C0, b, 0, n)` on an all-zero `C0`, the canonical product.
So does `parallel_computing_simple_multithread` itself. -/
theorem simple_multithread_matches_single_span (n b : Nat) (A B : Matrix) (hA : Square n A)
    (hB : Square n B) (hb : 1 ≤ b) :
    ∃ spans, simple_multithread_spans n b = some spans ∧
      (∀ sp, sp ∈ spans ↔ ∃ k, k * b < n ∧ sp = (k * b, min (k * b + b) n)) ∧
      spans.Pairwise SpansDisjoint ∧
      (∀ x, x < n ↔ ∃ sp ∈ spans, sp.1 ≤ x ∧ x < sp.2) ∧
      (∀ order, order.Perm spans →
        ∃ C, run_workers A B b order (zeros n) = some C ∧
          matrix_mul A B (zeros n) b 0 n = some C ∧
          ∀ i j, i < n → j < n → C.get i j = wrapInt (dotProduct A B n i j)) ∧
      ∃ C, parallel_computing_simple_multithread A B (zeros n) b = some C ∧
        matrix_mul A B (zeros n) b 0 n = some C := by
  obtain ⟨spans, hspans, hord, hmem, hcov⟩ := simple_multithread_spans_spec n b hb
  have hsp : ∀ sp ∈ spans, sp.1 ≤ sp.2 ∧ sp.2 ≤ n ∧ (b ∣ (sp.2 - sp.1) ∨ sp.2 = n) := by
    intro sp hm
    obtain ⟨_, h2, h3⟩ := hmem sp hm
    refine ⟨by omega, by omega, ?_⟩
    by_cases hc : sp.1 + b ≤ n
    · left
      have : sp.2 - sp.1 = b := by omega
      rw [this]
    · right
      omega
  have hpw : spans.Pairwise SpansDisjoint := hord.imp (fun h => spansDisjoint_of_le h)
  obtain ⟨S, hS, hSsq, hSval⟩ := matrix_mul_exact hA.1 hB.1 (square_zeros n) hb
    (Nat.zero_le n) (Nat.le_refl n) (Or.inr rfl)
  have hall : ∀ order : List (Nat × Nat), order.Perm spans →
      ∃ C, run_workers A B b order (zeros n) = some C ∧
        matrix_mul A B (zeros n) b 0 n = some C ∧
        ∀ i j, i < n → j < n → C.get i j = wrapInt (dotProduct A B n i j) := by
    intro order hperm
    obtain ⟨C, hr, hsq, hval⟩ := run_workers_canonical hA.1 hB.1 hb hsp hpw hcov hperm
    have hCS : C = S := by
      apply matrix_ext hsq hSsq
      intro i j hi hj
      rw [hval i j hi hj, hSval i j hi hj, if_pos ⟨Nat.zero_le i, hi⟩, get_zeros, zero_add]
    exact ⟨C, hr, by rw [hCS]; exact hS, hval⟩
  refine ⟨spans, hspans, ?_, hpw, ?_, hall, ?_⟩
  · intro sp
    constructor
    · intro hm
      obtain ⟨⟨k, hk⟩, h2, h3⟩ := hmem sp hm
      refine ⟨k, by rw [Nat.mul_comm]; omega, ?_⟩
      rw [Nat.mul_comm k b, ← hk, ← h3]
    · rintro ⟨k, hk, rfl⟩
      obtain ⟨sp, hm, hlo, hhi⟩ := hcov (k * b) hk
      obtain ⟨⟨m, hm1⟩, h2, h3⟩ := hmem sp hm
      have hmk : m = k := by
        have h4 : m * b ≤ k * b := by rw [Nat.mul_comm m b, ← hm1]; exact hlo
        have h5 : k * b < (m + 1) * b := by
          have : (m + 1) * b = b * m + b := by ring
          omega
        have h6 : m ≤ k := Nat.le_of_mul_le_mul_right h4 hb
        have h7 : k < m + 1 := Nat.lt_of_mul_lt_mul_right h5
        omega
      have hsp1 : sp.1 = k * b := by rw [hm1, hmk, Nat.mul_comm]
      have : sp = (k * b, min (k * b + b) n) := by
        rw [← hsp1, ← h3]
      rw [← this]
      exact hm
  · intro x
    constructor
    · exact hcov x
    · rintro ⟨sp, hm, _, hhi⟩
      have := (hsp sp hm).2.1
      omega
  · obtain ⟨C, hr, hs, _⟩ := hall spans (List.Perm.refl _)
    refine ⟨C, ?_, hs⟩
    unfold parallel_computing_simple_multithread
    rw [hA.1, hspans]
    exact hr

theorem simple_multithread_matches_single_span_witness :
    (Square 5 (main_src1 5) ∧ Square 5 (main_src2 5) ∧ 1 ≤ 2) ∧
    ∃ spans, simple_multithread_spans 5 2 = some spans ∧
      (∀ sp, sp ∈ spans ↔ ∃ k, k * 2 < 5 ∧ sp = (k * 2, min (k * 2 + 2) 5)) ∧
      spans.Pairwise SpansDisjoint ∧
      (∀ x, x < 5 ↔ ∃ sp ∈ spans, sp.1 ≤ x ∧ x < sp.2) ∧
      (∀ order, order.Perm spans →
        ∃ C, run_workers (main_src1 5) (main_src2 5) 2 order (zeros 5) = some C ∧
          matrix_mul (main_src1 5) (main_src2 5) (zeros 5) 2 0 5 = some C ∧
          ∀ i j, i < 5 → j < 5 →
            C.get i j = wrapInt (dotProduct (main_src1 5) (main_src2 5) 5 i j)) ∧
      ∃ C, parallel_computing_simple_multithread (main_src1 5) (main_src2 5) (zeros 5) 2 = some C ∧
        matrix_mul (main_src1 5) (main_src2 5) (zeros 5) 2 0 5 = some C :=
  ⟨by decide,
    simple_multithread_matches_single_span 5 2 (main_src1 5) (main_src2 5)
      (by decide) (by decide) (by decide)⟩

end MatrixMul
